import Mathlib

/-!
Verification development for the OIC archive diff engine.

Shallow embedding of:
  * `normalizePath`, `normalizeContent` (src/server/utils/diffEngine.ts)
  * `normalizeXML` (src/server/utils/fileProcessor.ts)
  * `computeFileDiff` and its severity/category helpers (src/server/utils/diffEngine.ts)
  * `computeDiffOperations` (LCS line differ, src/unnamed/part_000)
  * `compareFlows` (flow comparator, src/unnamed/part_002)
  * `findProcess` / `parseBpelFlow` error-handling skeleton (src/server/utils/bpelParser.ts)

Strings are modelled as `String` (a structure over `List Char`); the JavaScript
`String.prototype.replace(/re/g, s)` global-replace is modelled by a left-to-right
scanner (`scan`) that at each position either rewrites the leftmost match and
continues after it, or copies one character — exactly the semantics of a global
regex replace for the patterns appearing in this code base (all of which match at
least one character and need no backtracking).  JavaScript `\s` / `trim` are
modelled over the ASCII whitespace characters; the inputs this engine sees are
ASCII.  `toLowerCase` is modelled by `Char.toLower` (they agree on ASCII).
-/

namespace OIC

/-- One step of a global regex replace: `f s` returns `some (replacement, rest)`
when the regex matches at the start of `s` (consuming at least one character),
`none` otherwise. -/
abbrev Rule := List Char → Option (List Char × List Char)

/-- Fuel-indexed scanner.  With fuel ≥ length this is the JS global replace:
try the rule at each position; on a match emit the replacement and continue
after the match, otherwise copy one character. -/
def scanAux (f : Rule) : Nat → List Char → List Char
  | 0, s => s
  | _ + 1, [] => []
  | fuel + 1, c :: cs =>
    match f (c :: cs) with
    | some (r, t) => r ++ scanAux f fuel t
    | none => c :: scanAux f fuel cs

/-- JS `str.replace(/re/g, repl)` for the rule `f`. -/
def scan (f : Rule) (s : List Char) : List Char := scanAux f s.length s

def strL (s : String) : List Char := s.data

/-- ASCII whitespace, the fragment of JS `\s` relevant to this code base. -/
def isSpaceJS (c : Char) : Bool :=
  c = ' ' || c = '\t' || c = '\n' || c = '\r' || c = Char.ofNat 11 || c = Char.ofNat 12

def isDigitJS (c : Char) : Bool := '0' ≤ c && c ≤ '9'

/-- character class `[a-f0-9]` -/
def isHexLower (c : Char) : Bool := isDigitJS c || ('a' ≤ c && c ≤ 'f')

/-- character class `[a-f0-9-]` -/
def isHexLowerDash (c : Char) : Bool := isHexLower c || c = '-'

/-- Rule for a pattern `LIT<cls>+` replaced by `repl`
(e.g. `/processor_\d+/g` → `'processor_X'`). -/
def litClassPlus (lit : List Char) (cls : Char → Bool) (repl : List Char) : Rule :=
  fun s =>
    if lit.isPrefixOf s then
      let t := s.drop lit.length
      let run := t.takeWhile cls
      if run.isEmpty then none else some (repl, t.drop run.length)
    else none

/-- Rule for a pattern `LIT[^q]*q` replaced by `repl`, where `LIT` ends with the
opening quote `q` (e.g. `/timestamp="[^"]*"/g` → `'timestamp=""'`). -/
def quotedAttr (lit : List Char) (q : Char) (repl : List Char) : Rule :=
  fun s =>
    if lit.isPrefixOf s then
      let t := s.drop lit.length
      let run := t.takeWhile (fun c => c ≠ q)
      match t.drop run.length with
      | _ :: rest => some (repl, rest)
      | [] => none
    else none

/-- Rule for `/_\d{2}\.\d{2}\.\d{4}/g` (version suffixes), replaced by `''`. -/
def versionRule : Rule := fun s =>
  match s with
  | '_' :: a :: b :: '.' :: c :: d :: '.' :: e :: f :: g :: h :: rest =>
    if isDigitJS a && isDigitJS b && isDigitJS c && isDigitJS d &&
       isDigitJS e && isDigitJS f && isDigitJS g && isDigitJS h then
      some ([], rest)
    else none
  | _ => none

/-- Rule for `/\s*\(\d+\)/g` (numbered duplicate suffixes), replaced by `''`. -/
def parenNumRule : Rule := fun s =>
  let sp := s.takeWhile isSpaceJS
  match s.drop sp.length with
  | '(' :: u =>
    let ds := u.takeWhile isDigitJS
    if ds.isEmpty then none
    else
      match u.drop ds.length with
      | ')' :: rest => some ([], rest)
      | _ => none
  | _ => none

/-- Rule for `/\/+/g` → `'/'`. -/
def slashPlusRule : Rule := fun s =>
  match s with
  | '/' :: _ =>
    let run := s.takeWhile (fun c => c = '/')
    some (['/'], s.drop run.length)
  | _ => none

/-- Rule for `/\s+/g` → `' '`. -/
def spacePlusRule : Rule := fun s =>
  match s with
  | c :: _ =>
    if isSpaceJS c then
      let run := s.takeWhile isSpaceJS
      some ([' '], s.drop run.length)
    else none
  | [] => none

/-- Rule for `/xmlns:orajs\d+="[^"]*"/g` → `''`. -/
def orajsNsRule : Rule := fun s =>
  if (strL "xmlns:orajs").isPrefixOf s then
    let t := s.drop 11
    let ds := t.takeWhile isDigitJS
    if ds.isEmpty then none
    else
      match t.drop ds.length with
      | '=' :: '"' :: u =>
        let run := u.takeWhile (fun c => c ≠ '"')
        match u.drop run.length with
        | _ :: rest => some ([], rest)
        | [] => none
      | _ => none
  else none

/-- Rule for `/orajs\d+:/g` → `'orajs:'`. -/
def orajsColonRule : Rule := fun s =>
  if (strL "orajs").isPrefixOf s then
    let t := s.drop 5
    let ds := t.takeWhile isDigitJS
    if ds.isEmpty then none
    else
      match t.drop ds.length with
      | ':' :: rest => some (strL "orajs:", rest)
      | _ => none
  else none

/-- JS `trim()` (ASCII whitespace). -/
def trimL (s : List Char) : List Char :=
  ((s.dropWhile isSpaceJS).reverse.dropWhile isSpaceJS).reverse

def lowerL (s : List Char) : List Char := s.map Char.toLower

/-- The opening literal of the `timestamp="..."` attribute pattern. -/
def tsOpen : List Char := strL "timestamp=\""

/-- The replacement text `timestamp=""`. -/
def tsRepl : List Char := strL "timestamp=\"\""

/-- The timestamp-attribute rule, the first substitution of `normalizeXML`. -/
def fTimestamp : Rule := quotedAttr tsOpen '"' tsRepl

/-- A full `timestamp="v"` attribute occurrence with value `v`. -/
def tsTok (v : List Char) : List Char := tsOpen ++ v ++ ['"']

/-- `normalizeXML` (src/server/utils/fileProcessor.ts, lines 111-146):
the ordered list of global replaces, then whitespace collapsing and trim. -/
def normalizeXMLL (s : List Char) : List Char :=
  let s1 := scan fTimestamp s
  let s2 := scan (quotedAttr (strL "createdTime=\"") '"' (strL "createdTime=\"\"")) s1
  let s3 := scan (quotedAttr (strL "modifiedTime=\"") '"' (strL "modifiedTime=\"\"")) s2
  let s4 := scan (quotedAttr (strL "lastUpdatedTime=\"") '"' (strL "lastUpdatedTime=\"\"")) s3
  let s5 := scan (quotedAttr (strL "xml:id=\"") '"' []) s4
  let s6 := scan (quotedAttr (strL "xml:id='") (Char.ofNat 39) []) s5
  let s7 := scan (quotedAttr (strL "generatedId=\"") '"' []) s6
  let s8 := scan (litClassPlus (strL "processor_") isDigitJS (strL "processor_NORMALIZED")) s7
  let s9 := scan (litClassPlus (strL "resourcegroup_") isDigitJS (strL "resourcegroup_NORMALIZED")) s8
  let s10 := scan (litClassPlus (strL "application_") isDigitJS (strL "application_NORMALIZED")) s9
  let s11 := scan (litClassPlus (strL "inbound_") isDigitJS (strL "inbound_NORMALIZED")) s10
  let s12 := scan (litClassPlus (strL "outbound_") isDigitJS (strL "outbound_NORMALIZED")) s11
  let s13 := scan orajsNsRule s12
  let s14 := scan orajsColonRule s13
  let s15 := scan spacePlusRule s14
  trimL s15

def normalizeXML (s : String) : String := ⟨normalizeXMLL s.data⟩

/-- `normalizePath` (src/server/utils/diffEngine.ts, lines 25-49). -/
def normalizePathL (s : List Char) : List Char :=
  let s1 := scan (litClassPlus (strL "processor_") isDigitJS (strL "processor_X")) s
  let s2 := scan (litClassPlus (strL "resourcegroup_") isDigitJS (strL "resourcegroup_X")) s1
  let s3 := scan (litClassPlus (strL "application_") isDigitJS (strL "application_X")) s2
  let s4 := scan (litClassPlus (strL "inbound_") isDigitJS (strL "inbound_X")) s3
  let s5 := scan (litClassPlus (strL "outbound_") isDigitJS (strL "outbound_X")) s4
  let s6 := scan (litClassPlus (strL "itg_") isHexLowerDash (strL "itg_X")) s5
  let s7 := scan versionRule s6
  let s8 := scan parenNumRule s7
  let s9 := scan (litClassPlus (strL "req_") isHexLower (strL "req_X")) s8
  let s10 := scan (litClassPlus (strL "res_") isHexLower (strL "res_X")) s9
  let s11 := scan slashPlusRule s10
  trimL (lowerL s11)

def normalizePath (p : String) : String := ⟨normalizePathL p.data⟩

/-- JS `String.prototype.includes` (substring test). -/
def includesL (sub : List Char) : List Char → Bool
  | [] => sub.isEmpty
  | c :: cs => sub.isPrefixOf (c :: cs) || includesL sub cs

def endsWithL (suf s : List Char) : Bool := suf.isSuffixOf s

/-- The XML-family extension dispatch of `normalizeContent`
(src/server/utils/diffEngine.ts, lines 55-56). -/
def isXmlFamilyL (lowerPath : List Char) : Bool :=
  endsWithL (strL ".xml") lowerPath || endsWithL (strL ".xsl") lowerPath ||
  endsWithL (strL ".xslt") lowerPath || endsWithL (strL ".wsdl") lowerPath ||
  endsWithL (strL ".xsd") lowerPath || endsWithL (strL ".jca") lowerPath

/-- The identifier-only substitutions used by the `.properties` and default
branches of `normalizeContent` (src/server/utils/diffEngine.ts, lines 74-94). -/
def idOnlyNormalizeL (s : List Char) : List Char :=
  let s1 := scan (litClassPlus (strL "processor_") isDigitJS (strL "processor_X")) s
  let s2 := scan (litClassPlus (strL "resourcegroup_") isDigitJS (strL "resourcegroup_X")) s1
  let s3 := scan (litClassPlus (strL "itg_") isHexLowerDash (strL "itg_X")) s2
  let s4 := scan (litClassPlus (strL "application_") isDigitJS (strL "application_X")) s3
  let s5 := scan (litClassPlus (strL "inbound_") isDigitJS (strL "inbound_X")) s4
  scan (litClassPlus (strL "outbound_") isDigitJS (strL "outbound_X")) s5

/-- The JSON branch of `normalizeContent` (src/server/utils/diffEngine.ts, lines 61-71). -/
def jsonNormalizeL (s : List Char) : List Char :=
  let s1 := scan (litClassPlus (strL "\"itg_") isHexLowerDash (strL "\"itg_X")) s
  let s2 := scan (litClassPlus (strL "\"/tmp/WC/itg_") isHexLowerDash (strL "\"/tmp/WC/itg_X")) s1
  let s3 := scan (litClassPlus (strL "processor_") isDigitJS (strL "processor_X")) s2
  scan (litClassPlus (strL "resourcegroup_") isDigitJS (strL "resourcegroup_X")) s3

/-- `normalizeContent` (src/server/utils/diffEngine.ts, lines 51-95). -/
def normalizeContent (content : String) (path : String) : String :=
  let lowerPath := lowerL path.data
  if isXmlFamilyL lowerPath then normalizeXML content
  else if endsWithL (strL ".json") lowerPath then ⟨jsonNormalizeL content.data⟩
  else if endsWithL (strL ".properties") lowerPath then ⟨idOnlyNormalizeL content.data⟩
  else ⟨idOnlyNormalizeL content.data⟩

/-! ## File-level diff engine (src/server/utils/diffEngine.ts) -/

/-- An archive file record (src/shared/schema.ts `archive_files`): `content`
is nullable.  The fields not read by the diff engine (`id`, `archiveId`) are
omitted. -/
structure ArchiveFile where
  path : String
  hash : String
  size : Nat
  content : Option String
deriving DecidableEq, Repr

/-- A produced diff item.  Only the fields any stated property is about are
embedded: `changeType`, `severity`, the two original-path references and the
`metadata.path` / `metadata.category` entries.  The presentation-only text
fields (`entityType`, `entityName`, `riskReason`, `diffPatch` and the
description/object-name metadata) are not modelled; no stated claim mentions
them. -/
structure DiffItem where
  diffRunId : Int
  changeType : String
  severity : String
  leftRef : Option String
  rightRef : Option String
  /-- `metadata.path`, the normalized path key of the entry. -/
  mpath : String
  /-- `metadata.category`, also the key bumped in `summary.categories`. -/
  category : String
deriving DecidableEq, Repr

structure CategoryCounts where
  connections : Nat
  mappings : Nat
  flowLogic : Nat
  lookups : Nat
  configuration : Nat
  other : Nat
deriving DecidableEq, Repr

structure DiffSummary where
  high : Nat
  medium : Nat
  low : Nat
  info : Nat
  totalMeaningful : Nat
  categories : CategoryCounts
deriving DecidableEq, Repr

/-- JS `Map.prototype.set` (also property assignment on a plain object):
overwrite the entry in place keeping its original position, or append a new
entry.  Keys are unique in every map built from `[]` with this operation. -/
def jsMapSet {α : Type} : List (String × α) → String → α → List (String × α)
  | [], k, v => [(k, v)]
  | e :: rest, k, v => if e.1 = k then (k, v) :: rest else e :: jsMapSet rest k v

/-- JS `Map.prototype.get` (also property lookup on a plain object). -/
def jsGet {α : Type} (m : List (String × α)) (k : String) : Option α :=
  (m.find? (fun e => e.1 = k)).map (·.2)

/-- Build the normalized-path → file map of one side
(src/server/utils/diffEngine.ts, lines 421-432). -/
def buildFileMap (files : List ArchiveFile) : List (String × ArchiveFile) :=
  files.foldl (fun m f => jsMapSet m (normalizePath f.path) f) []

/-- JS `new Set([...a, ...b])` iteration order: first occurrence kept. -/
def dedupKeys (seen : List String) : List String → List String
  | [] => []
  | k :: ks => if seen.contains k then dedupKeys seen ks else k :: dedupKeys (k :: seen) ks

/-- `categorizeFile` (src/server/utils/diffEngine.ts, lines 97-105). -/
def categorizeFile (path : String) : String :=
  let lp := lowerL path.data
  if includesL (strL "connection") lp || endsWithL (strL ".jca") lp then "connections"
  else if includesL (strL "mapping") lp || endsWithL (strL ".xsl") lp ||
          endsWithL (strL ".xslt") lp then "mappings"
  else if includesL (strL "orchestration") lp || includesL (strL "bpel") lp then "flowLogic"
  else if includesL (strL "lookup") lp || includesL (strL "dvm") lp then "lookups"
  else if includesL (strL "schedule") lp || includesL (strL "tracking") lp ||
          endsWithL (strL ".properties") lp then "configuration"
  else "other"

/-- `analyzePathChange` (src/server/utils/diffEngine.ts, lines 553-603);
returns `(severity, riskReason)`. -/
def analyzePathChange (path : String) (changeType : String) : String × String :=
  let action := if changeType = "Added" then "added" else "removed"
  let lp := lowerL path.data
  if includesL (strL "orchestration") lp then
    ("High", "Integration flow was " ++ action ++ ". This controls the main processing logic.")
  else if endsWithL (strL ".xsl") lp || endsWithL (strL ".xslt") lp ||
          includesL (strL "mapping") lp then
    (if changeType = "Removed" then "High" else "Medium",
     "Data transformation was " ++ action ++ ". This affects how data is converted between systems.")
  else if includesL (strL "connection") lp || endsWithL (strL ".jca") lp then
    ("Medium", "Connection configuration was " ++ action ++ ". This affects connectivity to external systems.")
  else if endsWithL (strL ".wsdl") lp || endsWithL (strL ".xsd") lp then
    ("Medium", "Service definition was " ++ action ++ ". This may affect API compatibility.")
  else if includesL (strL "lookup") lp || includesL (strL "dvm") lp then
    ("Low", "Lookup data was " ++ action ++ ". Used for value translation.")
  else if includesL (strL "schedule") lp then
    ("Low", "Schedule was " ++ action ++ ". This controls when the integration runs.")
  else
    ("Info", "Supporting file was " ++ action ++ ".")

/-- JS truthiness of a `string | null | undefined` value. -/
def jsTruthyStr (o : Option String) : Bool :=
  match o with
  | some s => !s.data.isEmpty
  | none => false

/-- `analyzeFileChange` (src/server/utils/diffEngine.ts, lines 605-696);
returns `(severity, riskReason)`.  Dispatches on the *original* left path. -/
def analyzeFileChange (leftFile rightFile : ArchiveFile) : String × String :=
  let p := lowerL leftFile.path.data
  if includesL (strL "orchestration") p then
    ("High", "Integration flow logic changed. The processing steps or decision logic was modified.")
  else if endsWithL (strL ".xsl") p || endsWithL (strL ".xslt") p || includesL (strL "mapping") p then
    let structural :=
      match leftFile.content, rightFile.content with
      | some lc, some rc =>
        (!lc.data.isEmpty) && (!rc.data.isEmpty) && !(normalizeXML lc = normalizeXML rc)
      | _, _ => false
    if structural then
      ("High", "Data transformation logic changed. The rules for converting data were modified.")
    else
      ("Medium", "Data mapping updated with minor changes.")
  else if includesL (strL "connection") p || endsWithL (strL ".jca") p then
    ("Medium", "Connection settings changed. Endpoint URLs or credentials may have been updated.")
  else if endsWithL (strL ".wsdl") p then
    ("Medium", "Web service definition changed. The API contract may have been updated.")
  else if endsWithL (strL ".xsd") p then
    ("Medium", "Data schema changed. The expected data structure was modified.")
  else if includesL (strL "lookup") p || includesL (strL "dvm") p then
    ("Low", "Lookup values updated. Reference data for value translation was changed.")
  else if includesL (strL "schedule") p then
    ("Low", "Schedule modified. The timing for when this integration runs was changed.")
  else if includesL (strL "tracking") p then
    ("Low", "Tracking fields updated. Business identifiers for monitoring were changed.")
  else if endsWithL (strL ".properties") p then
    ("Low", "Configuration values changed.")
  else if includesL (strL "error") p || includesL (strL "fault") p then
    ("Low", "Error handling changed. How failures are handled was modified.")
  else
    ("Info", "Supporting file modified.")

/-- JS `x?.path || null`: an empty-string path is falsy and becomes `null`. -/
def jsOrNull (o : Option String) : Option String :=
  match o with
  | some s => if s.data.isEmpty then none else some s
  | none => none

/-- Item construction for one normalized-path key
(src/server/utils/diffEngine.ts, lines 477-525, restricted to the embedded
fields). -/
def mkDiffItem (diffRunId : Int) (p : String) (changeType severity : String)
    (leftFile rightFile : Option ArchiveFile) : DiffItem :=
  { diffRunId := diffRunId
    changeType := changeType
    severity := severity
    leftRef := jsOrNull (leftFile.map (·.path))
    rightRef := jsOrNull (rightFile.map (·.path))
    mpath := p
    category := categorizeFile p }

/-- The body of the per-key loop of `computeFileDiff`
(src/server/utils/diffEngine.ts, lines 439-525): classify the key as
Added / Removed / Modified / skipped, with the noise-suppression re-check for
Modified candidates whose two contents are both truthy.  Returns `none` for
Unchanged and for suppressed entries (the `continue` paths). -/
def processKey (leftMap rightMap : List (String × ArchiveFile)) (diffRunId : Int)
    (p : String) : Option DiffItem :=
  match jsGet leftMap p, jsGet rightMap p with
  | none, rightFile =>
    some (mkDiffItem diffRunId p "Added" (analyzePathChange p "Added").1 none rightFile)
  | some leftFile, none =>
    some (mkDiffItem diffRunId p "Removed" (analyzePathChange p "Removed").1 (some leftFile) none)
  | some leftFile, some rightFile =>
    if leftFile.hash = rightFile.hash then none
    else
      let suppress :=
        match leftFile.content, rightFile.content with
        | some lc, some rc =>
          (!lc.data.isEmpty) && (!rc.data.isEmpty) &&
            (normalizeContent lc leftFile.path = normalizeContent rc rightFile.path)
        | _, _ => false
      if suppress then none
      else
        some (mkDiffItem diffRunId p "Modified" (analyzeFileChange leftFile rightFile).1
          (some leftFile) (some rightFile))

def isMeaningful (it : DiffItem) : Bool :=
  it.severity = "High" || it.severity = "Medium"

/-- Stable insertion into a sorted list: the new element (later in the
original order) goes before the first element it compares `le` to, i.e. after
nothing it ties with that came earlier in the recursion. -/
def insSorted {α : Type} (le : α → α → Bool) (a : α) : List α → List α
  | [] => [a]
  | b :: l => if le a b then a :: b :: l else b :: insSorted le a l

/-- A stable sort (insertion sort).  ES2019 requires `Array.prototype.sort` to
be stable, and for a consistent comparator every stable sort produces the same
output, so this models the source's `meaningfulChanges.sort(...)`. -/
def jsStableSort {α : Type} (le : α → α → Bool) : List α → List α
  | [] => []
  | a :: l => insSorted le a (jsStableSort le l)

/-- The severity rank used by the sort comparator
(src/server/utils/diffEngine.ts, lines 541-545): the JS code computes
`severityOrder[severity] || 3`, and since `severityOrder['High'] = 0` is
falsy, `'High'` gets rank 3 (as does anything unknown); `'Medium'` → 1,
`'Low'` → 2. -/
def jsSeverityRank (it : DiffItem) : Nat :=
  if it.severity = "Medium" then 1
  else if it.severity = "Low" then 2
  else 3

/-- `computeFileDiff` (src/server/utils/diffEngine.ts, lines 399-551).
The imperative loop appends each produced item to exactly one of
`meaningfulChanges` / `minorChanges` (by `isMeaningful`) and bumps exactly one
severity counter (the `if/else if/else` chain, `else` counting as info) and
exactly one category counter; this is rendered with `filterMap`, `filter` and
`countP` over the keys in iteration order.  Only `meaningfulChanges` is sorted
(with ES2019's stable `Array.prototype.sort`, modelled by the stable
`jsStableSort`); `minorChanges` is concatenated unsorted. -/
def computeFileDiff (leftFiles rightFiles : List ArchiveFile) (diffRunId : Int) :
    List DiffItem × DiffSummary :=
  let leftMap := buildFileMap leftFiles
  let rightMap := buildFileMap rightFiles
  let allNormalizedPaths := dedupKeys [] (leftMap.map (·.1) ++ rightMap.map (·.1))
  let raw := allNormalizedPaths.filterMap (processKey leftMap rightMap diffRunId)
  let meaningfulChanges := raw.filter isMeaningful
  let minorChanges := raw.filter (fun it => !isMeaningful it)
  let sorted := jsStableSort (fun a b => jsSeverityRank a ≤ jsSeverityRank b) meaningfulChanges
  let high := raw.countP (fun it => it.severity = "High")
  let medium := raw.countP (fun it => it.severity = "Medium")
  let low := raw.countP (fun it => it.severity = "Low")
  let info := raw.countP (fun it =>
    !(it.severity = "High" || it.severity = "Medium" || it.severity = "Low"))
  (sorted ++ minorChanges,
   { high := high
     medium := medium
     low := low
     info := info
     totalMeaningful := high + medium
     categories :=
       { connections := raw.countP (fun it => it.category = "connections")
         mappings := raw.countP (fun it => it.category = "mappings")
         flowLogic := raw.countP (fun it => it.category = "flowLogic")
         lookups := raw.countP (fun it => it.category = "lookups")
         configuration := raw.countP (fun it => it.category = "configuration")
         other := raw.countP (fun it => it.category = "other") } })

/-! ## LCS line differ (`computeDiffOperations`, src/unnamed/part_000, lines 384-430) -/

/-- One diff operation `{type, leftIdx, rightIdx}`; `-1` is the absent-side
sentinel. -/
structure DiffOp where
  type : String
  leftIdx : Int
  rightIdx : Int
deriving DecidableEq, Repr

/-- One inner iteration block of the DP loop: given `left[i-1]`, the remaining
right entries from column `j`, the previous row from entry `j-1` and the
current row's entry `j-1`, produce the current row's entries from column `j`. -/
def lcsRowAux (li : String) : List String → List Nat → Nat → List Nat
  | [], _, _ => []
  | rj :: rs, pPrev, cur =>
    let diag := pPrev.headD 0
    let up := (pPrev.drop 1).headD 0
    let v := if li = rj then diag + 1 else max up cur
    v :: lcsRowAux li rs (pPrev.drop 1) v

/-- Row `i` of the DP table, computed from row `i-1` (`dp[i][0] = 0`). -/
def lcsRow (li : String) (right : List String) (prevRow : List Nat) : List Nat :=
  0 :: lcsRowAux li right prevRow 0

def lcsRowsAux (right : List String) : List String → List Nat → List (List Nat)
  | [], _ => []
  | li :: ls, prev =>
    let r := lcsRow li right prev
    r :: lcsRowsAux right ls r

/-- The `(m+1) × (n+1)` LCS DP table (`dp[0][j] = dp[i][0] = 0`,
`dp[i][j] = dp[i-1][j-1]+1` on match else `max(dp[i-1][j], dp[i][j-1])`). -/
def lcsTable (left right : List String) : List (List Nat) :=
  let row0 := List.replicate (right.length + 1) 0
  row0 :: lcsRowsAux right left row0

def tableGet (tbl : List (List Nat)) (i j : Nat) : Nat :=
  ((tbl.getD i []).getD j 0)

/-- The backtrace loop `while (i > 0 || j > 0)`, in push order (the source
reverses at the end).  Each iteration decreases `i + j`, so `m + n` fuel is
exact. -/
def backtrackAux (left right : List String) (tbl : List (List Nat)) :
    Nat → Nat → Nat → List DiffOp
  | 0, _, _ => []
  | fuel + 1, i, j =>
    if i > 0 || j > 0 then
      if i > 0 && j > 0 && (left.getD (i - 1) "" = right.getD (j - 1) "") then
        ⟨"unchanged", Int.ofNat (i - 1), Int.ofNat (j - 1)⟩ ::
          backtrackAux left right tbl fuel (i - 1) (j - 1)
      else if j > 0 && (i = 0 || tableGet tbl i (j - 1) ≥ tableGet tbl (i - 1) j) then
        ⟨"added", -1, Int.ofNat (j - 1)⟩ :: backtrackAux left right tbl fuel i (j - 1)
      else
        ⟨"removed", Int.ofNat (i - 1), -1⟩ :: backtrackAux left right tbl fuel (i - 1) j
    else []

/-- `computeDiffOperations` (src/unnamed/part_000, lines 384-430). -/
def computeDiffOperations (left right : List String) : List DiffOp :=
  let m := left.length
  let n := right.length
  if m = 0 && n = 0 then []
  else if m = 0 then
    (List.range n).map (fun idx => ⟨"added", -1, Int.ofNat idx⟩)
  else if n = 0 then
    (List.range m).map (fun idx => ⟨"removed", Int.ofNat idx, -1⟩)
  else
    (backtrackAux left right (lcsTable left right) (m + n) m n).reverse

/-! ## Flow comparator (`compareFlows`, src/unnamed/part_002, lines 89-135) -/

/-- A parsed flow node (src/unnamed/part_002, lines 45-53).  `data` is a JS
`Record<string, any>`; it is modelled as an ordered association list, with the
`JSON.stringify(a) !== JSON.stringify(b)` comparison modelled as list
inequality (`JSON.stringify` is injective on a fixed key/value representation). -/
structure CFlowNode where
  id : String
  type : String
  name : String
  activityType : String
  icon : Option String
  posX : Int
  posY : Int
  data : List (String × String)
deriving DecidableEq, Repr

structure CFlowConnection where
  id : String
  source : String
  target : String
  label : Option String
  type : Option String
deriving DecidableEq, Repr

structure CFlowMetadata where
  processName : String
  namespaceName : Option String
  version : Option String
deriving DecidableEq, Repr

structure CParsedFlow where
  nodes : List CFlowNode
  connections : List CFlowConnection
  metadata : CFlowMetadata
deriving DecidableEq, Repr

def lowerStr (s : String) : String := ⟨lowerL s.data⟩

/-- `new Map(nodes.map(n => [n.name.toLowerCase(), n]))`: inserted in order,
the last node with a given lowercased name wins. -/
def buildNodeMap (nodes : List CFlowNode) : List (String × CFlowNode) :=
  nodes.foldl (fun m n => jsMapSet m (lowerStr n.name) n) []

/-- The modification test of `compareFlows`: differing `activityType`, node
type category, or serialized `data`. -/
def nodeDiffers (a b : CFlowNode) : Bool :=
  a.activityType ≠ b.activityType || a.type ≠ b.type || a.data ≠ b.data

def classifyLeftNode (rightMap : List (String × CFlowNode)) (n : CFlowNode) : String :=
  match jsGet rightMap (lowerStr n.name) with
  | none => "removed"
  | some rightNode => if nodeDiffers n rightNode then "modified" else "unchanged"

def classifyRightNode (leftMap : List (String × CFlowNode)) (n : CFlowNode) : String :=
  match jsGet leftMap (lowerStr n.name) with
  | none => "added"
  | some leftNode => if nodeDiffers n leftNode then "modified" else "unchanged"

/-- `compareFlows` (src/unnamed/part_002, lines 89-135).  The two returned
change objects (`nodeId → status`) are modelled as assignment-ordered
association lists. -/
def compareFlows (leftFlow rightFlow : Option CParsedFlow) :
    List (String × String) × List (String × String) :=
  match leftFlow, rightFlow with
  | some lf, some rf =>
    let leftNodeMap := buildNodeMap lf.nodes
    let rightNodeMap := buildNodeMap rf.nodes
    let leftChanges :=
      lf.nodes.foldl (fun obj n => jsMapSet obj n.id (classifyLeftNode rightNodeMap n)) []
    let rightChanges :=
      rf.nodes.foldl (fun obj n => jsMapSet obj n.id (classifyRightNode leftNodeMap n)) []
    (leftChanges, rightChanges)
  | _, _ => ([], [])

/-! ## Flow parse entry point (src/server/utils/bpelParser.ts, lines 347-359, 449-504) -/

/-- A parsed-JSON/XML JavaScript value, the shape `fast-xml-parser` returns. -/
inductive JsVal where
  | null : JsVal
  | bool : Bool → JsVal
  | num : Int → JsVal
  | str : String → JsVal
  | arr : List JsVal → JsVal
  | obj : List (String × JsVal) → JsVal

/-- JS truthiness (`undefined` is modelled by `null`). -/
def jsTruthy : JsVal → Bool
  | .null => false
  | .bool b => b
  | .num n => n ≠ 0
  | .str s => !s.data.isEmpty
  | .arr _ => true
  | .obj _ => true

/-- Whether `typeof v === 'object' && v !== null` holds. -/
def jsIsObject : JsVal → Bool
  | .arr _ => true
  | .obj _ => true
  | _ => false

/-- Property read `v[key]`, `undefined` modelled as `.null`. -/
def jsProp (fields : List (String × JsVal)) (k : String) : JsVal :=
  match jsGet fields k with
  | some v => v
  | none => .null

mutual

/-- `findProcess` (src/server/utils/bpelParser.ts, lines 347-359): return
`parsed.process` if truthy, else scan keys in order — a key whose lowercase
form contains `process` returns its value directly; an object-typed value is
searched recursively and a truthy result is returned.  On primitives the JS
key iteration yields only index keys with non-object values, so the search
falls through to `null`. -/
def findProcess : JsVal → JsVal
  | .obj fields =>
    if jsTruthy (jsProp fields "process") then jsProp fields "process"
    else findProcessFields fields
  | .arr xs => findProcessElems xs
  | _ => .null

def findProcessFields : List (String × JsVal) → JsVal
  | [] => .null
  | (k, v) :: rest =>
    if includesL (strL "process") (lowerL k.data) then v
    else if jsIsObject v then
      let found := findProcess v
      if jsTruthy found then found else findProcessFields rest
    else findProcessFields rest

def findProcessElems : List JsVal → JsVal
  | [] => .null
  | v :: rest =>
    if jsIsObject v then
      let found := findProcess v
      if jsTruthy found then found else findProcessElems rest
    else findProcessElems rest

end

/-- The empty sentinel flow returned from the `catch` branch of
`parseBpelFlow`. -/
def parseErrorFlow : CParsedFlow :=
  { nodes := [], connections := [],
    metadata := { processName := "Parse Error", namespaceName := none, version := none } }

/-- The empty sentinel flow returned when no process container is found. -/
def unknownFlow : CParsedFlow :=
  { nodes := [], connections := [],
    metadata := { processName := "Unknown", namespaceName := none, version := none } }

/-- `parseBpelFlow` (src/server/utils/bpelParser.ts, lines 449-504), with the
external `fast-xml-parser` call abstracted as its outcome `parseResult`
(`Except.error` = the parser threw) and the node/graph construction performed
on a found process (lines 477-495) abstracted as `build`.  The error handling
that decides the claims lives entirely in this skeleton: a throw is caught and
yields the `Parse Error` sentinel; a parse whose `findProcess` result is falsy
(`if (!process)`) yields the `Unknown` sentinel. -/
def parseBpelFlowWith (build : JsVal → CParsedFlow) (parseResult : Except Unit JsVal) :
    CParsedFlow :=
  match parseResult with
  | .error _ => parseErrorFlow
  | .ok parsed =>
    let process := findProcess parsed
    if !jsTruthy process then unknownFlow
    else build process

/-- `hasUnclosedTs pre` holds when some suffix of `pre` is `timestamp="` followed
by quote-free text, i.e. `pre` ends inside an unclosed `timestamp` attribute.
When this is false, no `timestamp="..."` regex match can start inside `pre` and
extend past its end. -/
def hasUnclosedTs : List Char → Bool
  | [] => false
  | c :: cs =>
    (tsOpen.isPrefixOf (c :: cs) && ((c :: cs).drop 11).all (fun x => x ≠ '"')) ||
      hasUnclosedTs cs

/-! ## Theorems -/

/-- `scanAux` is fuel-irrelevant for rules that consume at least one character:
any fuel at least the length computes `scan`. -/
theorem scanAux_eq_scan (f : Rule)
    (hf : ∀ s r t, f s = some (r, t) → t.length < s.length) :
    ∀ fuel s, s.length ≤ fuel → scanAux f fuel s = scan f s := by
  intro fuel
  induction fuel using Nat.strong_induction_on with
  | _ fuel ih =>
    intro s hs
    match fuel, s with
    | 0, s =>
      have hnil : s = [] := List.eq_nil_of_length_eq_zero (Nat.le_zero.mp hs)
      subst hnil; rfl
    | fuel + 1, [] => rfl
    | fuel + 1, c :: cs =>
      have hcs : cs.length ≤ fuel := by
        have := hs; simp only [List.length_cons] at this; omega
      show scanAux f (fuel + 1) (c :: cs) = scanAux f (c :: cs).length (c :: cs)
      simp only [List.length_cons]
      cases hmatch : f (c :: cs) with
      | none =>
        have h1 : scanAux f fuel cs = scan f cs := ih fuel (Nat.lt_succ_self _) cs hcs
        have h2 : scanAux f cs.length cs = scan f cs := ih cs.length (by omega) cs le_rfl
        simp only [scanAux, hmatch]
        rw [h1, h2]
      | some rt =>
        obtain ⟨r, t⟩ := rt
        have ht : t.length < (c :: cs).length := hf _ _ _ hmatch
        simp only [List.length_cons] at ht
        have h1 : scanAux f fuel t = scan f t := ih fuel (Nat.lt_succ_self _) t (by omega)
        have h2 : scanAux f cs.length t = scan f t := ih cs.length (by omega) t (by omega)
        simp only [scanAux, hmatch]
        rw [h1, h2]

/-- Unfolding `scan` at a match position. -/
theorem scan_match (f : Rule)
    (hf : ∀ s r t, f s = some (r, t) → t.length < s.length)
    {s r t : List Char} (h : f s = some (r, t)) :
    scan f s = r ++ scan f t := by
  match s with
  | [] =>
    have := hf _ _ _ h
    simp at this
  | c :: cs =>
    have ht : t.length ≤ cs.length := by
      have := hf _ _ _ h; simp only [List.length_cons] at this; omega
    show scanAux f (c :: cs).length (c :: cs) = r ++ scan f t
    simp only [List.length_cons, scanAux, h]
    rw [scanAux_eq_scan f hf cs.length t ht]

/-- Unfolding `scan` at a non-match position. -/
theorem scan_nomatch (f : Rule) {c : Char} {cs : List Char} (h : f (c :: cs) = none) :
    scan f (c :: cs) = c :: scan f cs := by
  show scanAux f (c :: cs).length (c :: cs) = c :: scan f cs
  simp only [List.length_cons, scanAux, h]
  rfl

/-- Every `quotedAttr` match consumes at least one character. -/
theorem quotedAttr_consumes (lit : List Char) (q : Char) (repl : List Char) :
    ∀ s r t, quotedAttr lit q repl s = some (r, t) → t.length < s.length := by
  intro s r t h
  unfold quotedAttr at h
  split at h
  case isTrue hp =>
    simp only at h
    cases hdrop : (s.drop lit.length).drop
        ((s.drop lit.length).takeWhile (fun c => c ≠ q)).length with
    | nil => rw [hdrop] at h; exact absurd h (by simp)
    | cons a rest =>
      rw [hdrop] at h
      simp only [Option.some.injEq, Prod.mk.injEq] at h
      have hlen : t.length = rest.length := by rw [← h.2]
      have h2 : (a :: rest).length ≤ (s.drop lit.length).length := by
        rw [← hdrop, List.length_drop]
        omega
      have h3 : (s.drop lit.length).length ≤ s.length := by
        rw [List.length_drop]
        omega
      simp only [List.length_cons] at h2
      omega
  case isFalse => exact absurd h (by simp)

theorem takeWhile_append_cons {p : Char → Bool} (v : List Char) (c : Char) (r : List Char)
    (hv : ∀ x ∈ v, p x = true) (hc : p c = false) :
    (v ++ c :: r).takeWhile p = v := by
  induction v with
  | nil => simp [List.takeWhile_cons, hc]
  | cons a v ih =>
    have ha : p a = true := hv a (by simp)
    simp only [List.cons_append, List.takeWhile_cons, ha, if_true]
    rw [ih (fun x hx => hv x (by simp [hx]))]

theorem fTimestamp_consumes :
    ∀ s r t, fTimestamp s = some (r, t) → t.length < s.length :=
  quotedAttr_consumes tsOpen '"' tsRepl

theorem tsOpen_length : tsOpen.length = 11 := by decide

/-- The `timestamp="..."` rule fires exactly on a full occurrence
`timestamp="` ++ quote-free text ++ `"`, producing `timestamp=""`. -/
theorem fTimestamp_at (w R : List Char) (hw : ∀ x ∈ w, x ≠ '"') :
    fTimestamp (tsOpen ++ (w ++ '"' :: R)) = some (tsRepl, R) := by
  unfold fTimestamp quotedAttr
  have hpre : tsOpen.isPrefixOf (tsOpen ++ (w ++ '"' :: R)) = true :=
    List.isPrefixOf_iff_prefix.mpr (List.prefix_append _ _)
  rw [hpre]
  simp only [List.drop_left]
  have htw : (w ++ '"' :: R).takeWhile (fun c => decide (c ≠ '"')) = w := by
    apply takeWhile_append_cons
    · intro x hx; simpa using hw x hx
    · simp
  rw [htw, List.drop_left]
  simp

/-- Scanning across a full `timestamp="v"` occurrence at the head. -/
theorem scan_fTimestamp_token (v R : List Char) (hv : ∀ x ∈ v, x ≠ '"') :
    scan fTimestamp (tsOpen ++ (v ++ '"' :: R)) = tsRepl ++ scan fTimestamp R :=
  scan_match fTimestamp fTimestamp_consumes (fTimestamp_at v R hv)

/-- `isPrefixOf` only looks at the first `l.length` characters. -/
theorem isPrefixOf_eq_of_take_eq {l s₁ s₂ : List Char}
    (h : s₁.take l.length = s₂.take l.length) :
    l.isPrefixOf s₁ = l.isPrefixOf s₂ := by
  have hiff : (l <+: s₁) ↔ (l <+: s₂) := by
    rw [List.prefix_iff_eq_take, List.prefix_iff_eq_take, h]
  cases h2 : l.isPrefixOf s₂ with
  | true =>
    exact List.isPrefixOf_iff_prefix.mpr (hiff.mpr (List.isPrefixOf_iff_prefix.mp h2))
  | false =>
    cases h1 : l.isPrefixOf s₁ with
    | true =>
      rw [← h2]
      exact (List.isPrefixOf_iff_prefix.mpr (hiff.mp (List.isPrefixOf_iff_prefix.mp h1))).symm ▸ rfl
    | false => rfl

/-- The first 11 characters of `pre ++ timestamp="v"` ++ anything do not depend
on `v` or on what follows. -/
theorem take11_ts (pre v rest : List Char) :
    (pre ++ (tsTok v ++ rest)).take 11 = (pre ++ tsOpen).take 11 := by
  have hassoc : pre ++ (tsTok v ++ rest) = (pre ++ tsOpen) ++ (v ++ '"' :: rest) := by
    simp [tsTok, List.append_assoc]
  rw [hassoc, List.take_append_eq_append_take]
  have hlen : 11 - (pre ++ tsOpen).length = 0 := by
    simp [List.length_append, tsOpen_length]
  rw [hlen]
  simp

/-- `timestamp="` has no nontrivial self-overlap: no proper suffix of it is one
of its prefixes. -/
theorem tsOpen_no_overlap :
    ∀ k : Fin 11, 0 < k.val → (tsOpen.drop k.val).isPrefixOf tsOpen = false := by
  decide

theorem hasUnclosedTs_tail {c : Char} {cs : List Char}
    (h : hasUnclosedTs (c :: cs) = false) : hasUnclosedTs cs = false := by
  have := h
  unfold hasUnclosedTs at this
  exact (Bool.or_eq_false_iff.mp this).2

theorem hasUnclosedTs_suffix :
    ∀ (a b : List Char), hasUnclosedTs (a ++ b) = false → hasUnclosedTs b = false := by
  intro a
  induction a with
  | nil => intro b h; exact h
  | cons c a ih => intro b h; exact ih b (hasUnclosedTs_tail h)

/-- Splitting a list with a quote at its first quote. -/
theorem exists_split_at_quote :
    ∀ (l : List Char), (∃ x ∈ l, x = '"') →
      ∃ w t, l = w ++ '"' :: t ∧ ∀ x ∈ w, x ≠ '"' := by
  intro l
  induction l with
  | nil => intro h; simp at h
  | cons c cs ih =>
    intro h
    by_cases hc : c = '"'
    · exact ⟨[], cs, by simp [hc], by simp⟩
    · have : ∃ x ∈ cs, x = '"' := by
        obtain ⟨x, hx, hxq⟩ := h
        cases List.mem_cons.mp hx with
        | inl he => exact absurd (he ▸ hxq) hc
        | inr hm => exact ⟨x, hm, hxq⟩
      obtain ⟨w, t, hsplit, hw⟩ := ih this
      refine ⟨c :: w, t, by simp [hsplit], ?_⟩
      intro x hx
      cases List.mem_cons.mp hx with
      | inl he => exact he ▸ hc
      | inr hm => exact hw x hm

/-- Core lemma for noise suppression: the result of the global
`timestamp="[^"]*"` replace does not depend on the value of a well-formed
timestamp attribute, provided the preceding text does not end inside an
unclosed timestamp attribute. -/
theorem scan_fTimestamp_indep_aux :
    ∀ n pre, pre.length ≤ n → hasUnclosedTs pre = false →
      ∀ v₁ v₂ rest, (∀ x ∈ v₁, x ≠ '"') → (∀ x ∈ v₂, x ≠ '"') →
        scan fTimestamp (pre ++ (tsTok v₁ ++ rest)) =
          scan fTimestamp (pre ++ (tsTok v₂ ++ rest)) := by
  intro n
  induction n using Nat.strong_induction_on with
  | _ n ih =>
    intro pre hn hpre v₁ v₂ rest hv₁ hv₂
    have htok : ∀ v : List Char, tsTok v ++ rest = tsOpen ++ (v ++ '"' :: rest) := by
      intro v; simp [tsTok, List.append_assoc]
    match pre with
    | [] =>
      simp only [List.nil_append, htok]
      rw [scan_fTimestamp_token v₁ rest hv₁, scan_fTimestamp_token v₂ rest hv₂]
    | c :: p =>
      have htail : hasUnclosedTs p = false := hasUnclosedTs_tail hpre
      have htake : ((c :: p) ++ (tsTok v₁ ++ rest)).take 11 =
          ((c :: p) ++ (tsTok v₂ ++ rest)).take 11 := by
        rw [take11_ts, take11_ts]
      have htest : tsOpen.isPrefixOf ((c :: p) ++ (tsTok v₁ ++ rest)) =
          tsOpen.isPrefixOf ((c :: p) ++ (tsTok v₂ ++ rest)) := by
        apply isPrefixOf_eq_of_take_eq
        rw [tsOpen_length]
        exact htake
      cases hpref : tsOpen.isPrefixOf ((c :: p) ++ (tsTok v₁ ++ rest)) with
      | false =>
        have hpref₂ : tsOpen.isPrefixOf ((c :: p) ++ (tsTok v₂ ++ rest)) = false := by
          rw [← htest]; exact hpref
        have hf₁ : fTimestamp ((c :: p) ++ (tsTok v₁ ++ rest)) = none := by
          unfold fTimestamp quotedAttr
          rw [hpref]
          simp
        have hf₂ : fTimestamp ((c :: p) ++ (tsTok v₂ ++ rest)) = none := by
          unfold fTimestamp quotedAttr
          rw [hpref₂]
          simp
        simp only [List.cons_append] at hf₁ hf₂ ⊢
        rw [scan_nomatch fTimestamp hf₁, scan_nomatch fTimestamp hf₂]
        have hp : p.length ≤ n - 1 := by
          have := hn; simp only [List.length_cons] at this; omega
        have := ih (n - 1) (by
            have := hn; simp only [List.length_cons] at this; omega)
          p hp htail v₁ v₂ rest hv₁ hv₂
        rw [this]
      | true =>
        -- the test succeeded, so `timestamp="` is a prefix of `c :: p` itself
        have hlong : tsOpen.isPrefixOf (c :: p) = true := by
          by_cases hlen : (c :: p).length < 11
          · exfalso
            have hk0 : 0 < (c :: p).length := by simp
            have heq : tsOpen = ((c :: p) ++ (tsTok v₁ ++ rest)).take 11 := by
              have := List.isPrefixOf_iff_prefix.mp hpref
              rw [List.prefix_iff_eq_take] at this
              rw [this, tsOpen_length]
            rw [List.take_append_eq_append_take] at heq
            have h11 : (11 : Nat) - (c :: p).length ≤ 11 := by omega
            have heq2 : tsOpen = (c :: p).take 11 ++ (tsTok v₁ ++ rest).take (11 - (c :: p).length) := heq
            have htk : (tsTok v₁ ++ rest).take (11 - (c :: p).length) =
                tsOpen.take (11 - (c :: p).length) := by
              rw [htok, List.take_append_eq_append_take]
              have : 11 - (c :: p).length - tsOpen.length = 0 := by
                rw [tsOpen_length]; omega
              rw [this]
              simp
            rw [htk] at heq2
            have htake_all : (c :: p).take 11 = c :: p := List.take_of_length_le (by omega)
            rw [htake_all] at heq2
            -- so `drop (c::p).length tsOpen` is a take-prefix of tsOpen
            have hdrop : tsOpen.drop (c :: p).length = tsOpen.take (11 - (c :: p).length) := by
              conv_lhs => rw [heq2]
              rw [List.drop_left]
            have hpfx : (tsOpen.drop (c :: p).length).isPrefixOf tsOpen = true := by
              rw [hdrop]
              exact List.isPrefixOf_iff_prefix.mpr (List.take_prefix _ _)
            have := tsOpen_no_overlap ⟨(c :: p).length, by omega⟩ (by simp)
            simp only at this
            rw [this] at hpfx
            exact Bool.false_ne_true hpfx
          · -- 11 ≤ length: the prefix test only sees `c :: p`
            have htake11 : ((c :: p) ++ (tsTok v₁ ++ rest)).take 11 = (c :: p).take 11 := by
              rw [List.take_append_eq_append_take]
              have : (11 : Nat) - (c :: p).length = 0 := by omega
              rw [this]
              simp
            apply List.isPrefixOf_iff_prefix.mpr
            rw [List.prefix_iff_eq_take, tsOpen_length]
            have := List.isPrefixOf_iff_prefix.mp hpref
            rw [List.prefix_iff_eq_take, tsOpen_length, htake11] at this
            exact this
        -- decompose `c :: p = tsOpen ++ tail`, with a quote inside `tail`
        obtain ⟨tail, htail_eq⟩ := List.isPrefixOf_iff_prefix.mp hlong
        have hdrop11 : (c :: p).drop 11 = tail := by
          rw [← htail_eq, ← tsOpen_length, List.drop_left]
        have hquote : ∃ x ∈ tail, x = '"' := by
          have hhead : (tsOpen.isPrefixOf (c :: p) &&
              ((c :: p).drop 11).all (fun x => x ≠ '"')) = false := by
            have := hpre
            unfold hasUnclosedTs at this
            exact (Bool.or_eq_false_iff.mp this).1
          rw [hlong, Bool.true_and, hdrop11] at hhead
          by_contra hcon
          push_neg at hcon
          have hall : tail.all (fun x => decide (x ≠ '"')) = true := by
            rw [List.all_eq_true]
            intro x hx
            simp [hcon x hx]
          rw [hall] at hhead
          simp at hhead
        obtain ⟨w, t, hsplit, hw⟩ := exists_split_at_quote tail hquote
        have hform : ∀ v : List Char, (c :: p) ++ (tsTok v ++ rest) =
            tsOpen ++ (w ++ '"' :: (t ++ (tsTok v ++ rest))) := by
          intro v
          rw [← htail_eq, hsplit]
          simp [List.append_assoc]
        have hscan : ∀ v : List Char, (∀ x ∈ v, x ≠ '"') →
            scan fTimestamp ((c :: p) ++ (tsTok v ++ rest)) =
              tsRepl ++ scan fTimestamp (t ++ (tsTok v ++ rest)) := by
          intro v hv
          rw [hform v]
          exact scan_match fTimestamp fTimestamp_consumes (fTimestamp_at w _ hw)
        rw [hscan v₁ hv₁, hscan v₂ hv₂]
        have hlen_pre : (c :: p).length = 11 + w.length + 1 + t.length := by
          rw [← htail_eq, hsplit]
          simp [tsOpen_length]
          omega
        have htlen : t.length ≤ n - 1 := by
          have := hn
          omega
        have htfalse : hasUnclosedTs t = false := by
          apply hasUnclosedTs_suffix (tsOpen ++ w ++ ['"'])
          have : tsOpen ++ w ++ ['"'] ++ t = c :: p := by
            rw [← htail_eq, hsplit]
            simp
          rw [this]
          exact hpre
        have := ih (n - 1) (by omega) t htlen htfalse v₁ v₂ rest hv₁ hv₂
        rw [this]

/-- Value-independence of the timestamp replace, stated over the input list. -/
theorem scan_fTimestamp_indep (pre v₁ v₂ rest : List Char)
    (hpre : hasUnclosedTs pre = false)
    (hv₁ : ∀ x ∈ v₁, x ≠ '"') (hv₂ : ∀ x ∈ v₂, x ≠ '"') :
    scan fTimestamp (pre ++ (tsTok v₁ ++ rest)) =
      scan fTimestamp (pre ++ (tsTok v₂ ++ rest)) :=
  scan_fTimestamp_indep_aux pre.length pre le_rfl hpre v₁ v₂ rest hv₁ hv₂

/-- `normalizeXML` is a function of the output of its first substitution. -/
theorem normalizeXMLL_congr {a b : List Char}
    (h : scan fTimestamp a = scan fTimestamp b) : normalizeXMLL a = normalizeXMLL b := by
  simp only [normalizeXMLL, h]

/-! ### Association-list (JS Map / object) lemmas -/

theorem jsGet_nil {α : Type} (k : String) : jsGet ([] : List (String × α)) k = none := rfl

theorem jsGet_cons {α : Type} (e : String × α) (m : List (String × α)) (k : String) :
    jsGet (e :: m) k = if e.1 = k then some e.2 else jsGet m k := by
  by_cases h : e.1 = k <;> simp [jsGet, List.find?, h]

theorem jsGet_jsMapSet {α : Type} (m : List (String × α)) (k' : String) (v : α) (k : String) :
    jsGet (jsMapSet m k' v) k = if k = k' then some v else jsGet m k := by
  induction m with
  | nil =>
    show jsGet [(k', v)] k = _
    rw [jsGet_cons]
    by_cases h : k = k'
    · simp [h]
    · have h2 : ¬k' = k := fun hh => h hh.symm
      simp [h, h2]
  | cons e rest ih =>
    by_cases he : e.1 = k'
    · simp only [jsMapSet, he, if_true]
      rw [jsGet_cons, jsGet_cons]
      by_cases h : k = k'
      · subst h; simp [he]
      · have h2 : ¬k' = k := fun hh => h hh.symm
        have hek : ¬e.1 = k := by rw [he]; exact h2
        simp [h, h2, hek]
    · simp only [jsMapSet, he, if_false]
      rw [jsGet_cons, jsGet_cons]
      by_cases hek : e.1 = k
      · have hkk : ¬k = k' := by rw [← hek]; exact fun hh => he hh
        simp [hek, hkk]
      · simp [hek, ih]

/-- Lookup after a fold of `jsMapSet` assignments keyed by `key` with values
`g`: the last assignment wins, earlier map contents only matter for unassigned
keys. -/
theorem jsGet_foldl_set {α β : Type} (key : α → String) (g : α → β) :
    ∀ (ns : List α) (m0 : List (String × β)) (k : String),
      jsGet (ns.foldl (fun m n => jsMapSet m (key n) (g n)) m0) k =
        match ns.reverse.find? (fun n => key n = k) with
        | some n => some (g n)
        | none => jsGet m0 k := by
  intro ns
  induction ns with
  | nil => intro m0 k; simp
  | cons n ns ih =>
    intro m0 k
    simp only [List.foldl_cons, List.reverse_cons, List.find?_append]
    rw [ih]
    cases hf : ns.reverse.find? (fun n => key n = k) with
    | some m => simp [hf]
    | none =>
      simp only [hf, Option.none_or]
      rw [jsGet_jsMapSet]
      by_cases h : key n = k
      · have hd : (decide (key n = k)) = true := by simp [h]
        simp only [List.find?_cons, hd, List.find?_nil]
        rw [if_pos h.symm]
      · have hd : (decide (key n = k)) = false := by simp [h]
        have h3 : ¬k = key n := fun hh => h hh.symm
        simp only [List.find?_cons, hd, List.find?_nil]
        rw [if_neg h3]

/-- If a key function is injective on a list (e.g. from `Nodup` of the mapped
keys), reverse-find returns exactly the member with that key. -/
theorem find?_reverse_of_unique {α : Type} (key : α → String) (ns : List α) (n : α)
    (hn : n ∈ ns) (huniq : ∀ m ∈ ns, key m = key n → m = n) :
    ns.reverse.find? (fun m => key m = key n) = some n := by
  cases hf : ns.reverse.find? (fun m => key m = key n) with
  | none =>
    rw [List.find?_eq_none] at hf
    exact absurd (by simp : (decide (key n = key n)) = true)
      (by simpa using hf n (List.mem_reverse.mpr hn))
  | some m =>
    have hmem : m ∈ ns := List.mem_reverse.mp (List.mem_of_find?_eq_some hf)
    have hkey : key m = key n := by simpa using List.find?_some hf
    rw [huniq m hmem hkey]

theorem mem_keys_of_jsGet_some {α : Type} {m : List (String × α)} {k : String} {v : α}
    (h : jsGet m k = some v) : k ∈ m.map (·.1) := by
  unfold jsGet at h
  cases hf : m.find? (fun e => e.1 = k) with
  | none => rw [hf] at h; simp at h
  | some e =>
    have he : e.1 = k := by simpa using List.find?_some hf
    have hmem : e ∈ m := List.mem_of_find?_eq_some hf
    exact he ▸ List.mem_map_of_mem (·.1) hmem

theorem jsGet_isSome_of_mem_keys {α : Type} {m : List (String × α)} {k : String}
    (h : k ∈ m.map (·.1)) : ∃ v, jsGet m k = some v := by
  induction m with
  | nil => simp at h
  | cons e rest ih =>
    by_cases he : e.1 = k
    · exact ⟨e.2, by simp [jsGet, List.find?, he]⟩
    · have h2 : (decide (e.1 = k)) = false := by simp [he]
      have : k ∈ rest.map (·.1) := by
        rcases List.mem_map.mp h with ⟨x, hx, hxk⟩
        rcases List.mem_cons.mp hx with rfl | hx2
        · exact absurd hxk he
        · exact hxk ▸ List.mem_map_of_mem (·.1) hx2
      rcases ih this with ⟨v, hv⟩
      exact ⟨v, by simpa [jsGet, List.find?, h2] using hv⟩

theorem mem_of_mem_dedupKeys :
    ∀ (seen l : List String) (k : String), k ∈ dedupKeys seen l → k ∈ l := by
  intro seen l
  induction l generalizing seen with
  | nil => intro k h; simp [dedupKeys] at h
  | cons a l ih =>
    intro k h
    simp only [dedupKeys] at h
    split at h
    · exact List.mem_cons.mpr (.inr (ih seen k h))
    · rcases List.mem_cons.mp h with rfl | h2
      · exact List.mem_cons_self _ _
      · exact List.mem_cons.mpr (.inr (ih _ k h2))

theorem mem_dedupKeys_of_mem :
    ∀ (seen l : List String) (k : String), k ∈ l → k ∉ seen → k ∈ dedupKeys seen l := by
  intro seen l
  induction l generalizing seen with
  | nil => intro k h; simp at h
  | cons a l ih =>
    intro k h hseen
    simp only [dedupKeys]
    rcases List.mem_cons.mp h with rfl | h2
    · split
      case isTrue hc =>
        exact absurd (List.elem_iff.mp hc) hseen
      case isFalse => exact List.mem_cons_self _ _
    · split
      case isTrue => exact ih seen k h2 hseen
      case isFalse hc =>
        by_cases hk : k = a
        · exact hk ▸ List.mem_cons_self _ _
        · refine List.mem_cons.mpr (.inr (ih (a :: seen) k h2 ?_))
          intro hmem
          rcases List.mem_cons.mp hmem with rfl | h3
          · exact hk rfl
          · exact hseen h3

/-! ### Counting and membership lemmas for `computeFileDiff` -/

theorem length_insSorted {α : Type} (le : α → α → Bool) (a : α) (l : List α) :
    (insSorted le a l).length = l.length + 1 := by
  induction l with
  | nil => rfl
  | cons b l ih =>
    simp only [insSorted]
    split <;> simp [ih]

theorem mem_insSorted {α : Type} (le : α → α → Bool) (a x : α) (l : List α) :
    x ∈ insSorted le a l ↔ x = a ∨ x ∈ l := by
  induction l with
  | nil => simp [insSorted]
  | cons b l ih =>
    simp only [insSorted]
    split
    · simp
    · simp only [List.mem_cons, ih]
      tauto

theorem length_jsStableSort {α : Type} (le : α → α → Bool) (l : List α) :
    (jsStableSort le l).length = l.length := by
  induction l with
  | nil => rfl
  | cons a l ih => simp [jsStableSort, length_insSorted, ih]

theorem mem_jsStableSort {α : Type} (le : α → α → Bool) (x : α) (l : List α) :
    x ∈ jsStableSort le l ↔ x ∈ l := by
  induction l with
  | nil => simp [jsStableSort]
  | cons a l ih =>
    simp [jsStableSort, mem_insSorted, ih]

theorem length_filter_partition {α : Type} (p : α → Bool) (l : List α) :
    (l.filter p).length + (l.filter (fun a => !p a)).length = l.length := by
  induction l with
  | nil => rfl
  | cons a l ih =>
    cases hp : p a <;> simp [List.filter_cons, hp, List.length_cons] <;> omega

/-- Each produced item is counted by exactly one of the four severity counters
(the `if/else if/else` chain of the source, `else` counting as info). -/
theorem countP_sev_partition (l : List DiffItem) :
    l.countP (fun it => it.severity = "High") + l.countP (fun it => it.severity = "Medium") +
      l.countP (fun it => it.severity = "Low") +
      l.countP (fun it =>
        !(it.severity = "High" || it.severity = "Medium" || it.severity = "Low")) =
      l.length := by
  induction l with
  | nil => rfl
  | cons a l ih =>
    simp only [List.countP_cons, List.length_cons]
    by_cases h1 : a.severity = "High"
    · simp [h1] at ih ⊢; omega
    · by_cases h2 : a.severity = "Medium"
      · simp [h1, h2] at ih ⊢; omega
      · by_cases h3 : a.severity = "Low"
        · simp [h1, h2, h3] at ih ⊢; omega
        · simp [h1, h2, h3] at ih ⊢; omega

/-- An item is in the output list iff it is produced for some key of the union
of the two normalized-path maps (partition into meaningful/minor, stable sort
and concatenation preserve exactly the produced multiset). -/
theorem mem_items_iff (L R : List ArchiveFile) (rid : Int) (it : DiffItem) :
    it ∈ (computeFileDiff L R rid).1 ↔
      it ∈ (dedupKeys [] ((buildFileMap L).map (·.1) ++ (buildFileMap R).map (·.1))).filterMap
          (processKey (buildFileMap L) (buildFileMap R) rid) := by
  simp only [computeFileDiff]
  constructor
  · intro h
    rcases List.mem_append.mp h with h | h
    · exact (List.mem_filter.mp ((mem_jsStableSort _ _ _).mp h)).1
    · exact (List.mem_filter.mp h).1
  · intro h
    by_cases hm : isMeaningful it
    · exact List.mem_append.mpr
        (.inl ((mem_jsStableSort _ _ _).mpr (List.mem_filter.mpr ⟨h, hm⟩)))
    · refine List.mem_append.mpr (.inr (List.mem_filter.mpr ⟨h, ?_⟩))
      simp [hm]

/-- The four severity counters count exactly the produced items. -/
theorem computeFileDiff_sum (L R : List ArchiveFile) (rid : Int) :
    (computeFileDiff L R rid).2.high + (computeFileDiff L R rid).2.medium +
      (computeFileDiff L R rid).2.low + (computeFileDiff L R rid).2.info =
      (computeFileDiff L R rid).1.length := by
  simp only [computeFileDiff]
  rw [List.length_append, length_jsStableSort, length_filter_partition]
  exact countP_sev_partition _

/-- Every produced item's `metadata.path` is the key it was produced for. -/
theorem processKey_mpath {L R : List (String × ArchiveFile)} {rid : Int} {k : String}
    {it : DiffItem} (h : processKey L R rid k = some it) : it.mpath = k := by
  unfold processKey at h
  cases hl : jsGet L k with
  | none =>
    rw [hl] at h
    cases hr : jsGet R k <;> rw [hr] at h <;>
      · simp only [Option.some.injEq] at h
        rw [← h]
        rfl
  | some lf =>
    rw [hl] at h
    cases hr : jsGet R k with
    | none =>
      rw [hr] at h
      simp only [Option.some.injEq] at h
      rw [← h]
      rfl
    | some rf =>
      rw [hr] at h
      simp only at h
      split at h
      · exact absurd h (by simp)
      · split at h
        · exact absurd h (by simp)
        · simp only [Option.some.injEq] at h
          rw [← h]
          rfl

theorem jsGet_buildFileMap_mem {files : List ArchiveFile} {k : String} {f : ArchiveFile}
    (h : jsGet (buildFileMap files) k = some f) : f ∈ files := by
  have heq := jsGet_foldl_set (fun g : ArchiveFile => normalizePath g.path)
    (fun g : ArchiveFile => g) files [] k
  unfold buildFileMap at h
  rw [heq] at h
  cases hf : files.reverse.find? (fun g => normalizePath g.path = k) with
  | none => rw [hf] at h; simp [jsGet] at h
  | some g =>
    rw [hf] at h
    have hg : g = f := by simpa using h
    exact hg ▸ List.mem_reverse.mp (List.mem_of_find?_eq_some hf)

theorem data_ne_empty {s : String} (h : s ≠ "") : s.data.isEmpty = false := by
  cases s with
  | mk l =>
    cases l with
    | nil => exact absurd rfl h
    | cons c cs => rfl

/-- C3: for every pair of input file lists, the returned summary satisfies
`high + medium + low + info = items.length` and
`totalMeaningful = high + medium`. -/
theorem summary_consistent (L R : List ArchiveFile) (rid : Int) :
    (computeFileDiff L R rid).2.high + (computeFileDiff L R rid).2.medium +
        (computeFileDiff L R rid).2.low + (computeFileDiff L R rid).2.info =
      (computeFileDiff L R rid).1.length ∧
    (computeFileDiff L R rid).2.totalMeaningful =
      (computeFileDiff L R rid).2.high + (computeFileDiff L R rid).2.medium := by
  refine ⟨computeFileDiff_sum L R rid, ?_⟩
  simp only [computeFileDiff]

/-- C4: on left `["a","b","c"]` and right `["a","x","c"]` the LCS differ
produces exactly `[unchanged(a), removed(b), added(x), unchanged(c)]`, in that
order, with the `dp[i][j-1] >= dp[i-1][j]` tie-break emitting the added
operation first. -/
theorem computeDiffOperations_abc_axc :
    computeDiffOperations ["a", "b", "c"] ["a", "x", "c"] =
      [⟨"unchanged", 0, 0⟩, ⟨"removed", 1, -1⟩, ⟨"added", -1, 1⟩, ⟨"unchanged", 2, 2⟩] := by
  decide

/-- C10: when either argument of `compareFlows` is null, both change maps come
back empty: no node of the present side is classified. -/
theorem compareFlows_null_short_circuit :
    (∀ r : Option CParsedFlow, compareFlows none r = ([], [])) ∧
    (∀ l : Option CParsedFlow, compareFlows l none = ([], [])) := by
  constructor
  · intro r; cases r <;> rfl
  · intro l; cases l <;> rfl

/-- C2: `normalizePath` is not idempotent — lowercasing happens only at the
end of the substitution chain, so `"PROCESSOR_5"` normalizes to
`"processor_5"`, which a second pass rewrites to `"processor_x"`. -/
theorem normalizePath_not_idempotent :
    normalizePath "PROCESSOR_5" = "processor_5" ∧
    normalizePath (normalizePath "PROCESSOR_5") = "processor_x" ∧
    normalizePath (normalizePath "PROCESSOR_5") ≠ normalizePath "PROCESSOR_5" := by
  refine ⟨by decide, by decide, by decide⟩

/-- C6: the meaningful group is sorted with Medium before High: the comparator
rank `severityOrder[s] || 3` maps High's rank `0` (falsy) to `3`.  With the
High item first in iteration order, the output lists Medium first. -/
theorem meaningful_sorted_medium_before_high :
    ((computeFileDiff [] [⟨"orchestration/x.txt", "h1", 0, none⟩, ⟨"aaa.wsdl", "h2", 0, none⟩]
        1).1.map (fun it => it.severity)) = ["Medium", "High"] := by
  decide

/-- C7 counterexample: two files with empty path produce a Modified item whose
`leftRef` and `rightRef` are both null (`leftFile?.path || null` turns the
falsy empty string into null). -/
theorem emptyPath_item_both_refs_null :
    ((computeFileDiff [⟨"", "h1", 0, none⟩] [⟨"", "h2", 0, none⟩] 1).1.map
      (fun it => (it.leftRef, it.rightRef))) = [(none, none)] := by
  decide

/-- C7 amended: provided every input file has a nonempty path, every produced
item anchors to a file existing on at least one side: `leftRef` and `rightRef`
are never both null. -/
theorem diffItem_anchors_to_existing_file (L R : List ArchiveFile) (rid : Int)
    (hL : ∀ f ∈ L, f.path ≠ "") (hR : ∀ f ∈ R, f.path ≠ "") :
    ∀ it ∈ (computeFileDiff L R rid).1, it.leftRef ≠ none ∨ it.rightRef ≠ none := by
  intro it hit
  rw [mem_items_iff] at hit
  rcases List.mem_filterMap.mp hit with ⟨k, hk, hpk⟩
  have hkeys := mem_of_mem_dedupKeys _ _ _ hk
  cases hl : jsGet (buildFileMap L) k with
  | some lf =>
    have hmem : lf ∈ L := jsGet_buildFileMap_mem hl
    have hpath : lf.path.data.isEmpty = false := data_ne_empty (hL lf hmem)
    cases hr : jsGet (buildFileMap R) k with
    | none =>
      simp only [processKey, hl, hr, Option.some.injEq] at hpk
      left; rw [← hpk]; simp [mkDiffItem, jsOrNull, hpath]
    | some rf =>
      simp only [processKey, hl, hr] at hpk
      split at hpk
      · exact absurd hpk (by simp)
      · split at hpk
        · exact absurd hpk (by simp)
        · simp only [Option.some.injEq] at hpk
          left; rw [← hpk]; simp [mkDiffItem, jsOrNull, hpath]
  | none =>
    have hrk : k ∈ (buildFileMap R).map (·.1) := by
      rcases List.mem_append.mp hkeys with h | h
      · rcases jsGet_isSome_of_mem_keys h with ⟨v, hv⟩
        rw [hv] at hl; exact absurd hl (by simp)
      · exact h
    rcases jsGet_isSome_of_mem_keys hrk with ⟨rf, hrf⟩
    have hmem : rf ∈ R := jsGet_buildFileMap_mem hrf
    have hpath : rf.path.data.isEmpty = false := data_ne_empty (hR rf hmem)
    simp only [processKey, hl, hrf, Option.some.injEq] at hpk
    right; rw [← hpk]; simp [mkDiffItem, jsOrNull, hpath]

/-- C7 amended witness: the anchoring invariant at the concrete item produced
for a removed file `a.txt`. -/
theorem diffItem_anchors_witness :
    (⟨1, "Removed", "Info", some "a.txt", none, "a.txt", "other"⟩ : DiffItem).leftRef ≠ none ∨
      (⟨1, "Removed", "Info", some "a.txt", none, "a.txt", "other"⟩ : DiffItem).rightRef ≠ none :=
  diffItem_anchors_to_existing_file [⟨"a.txt", "h1", 0, none⟩] [] 1
    (by decide) (by decide)
    ⟨1, "Removed", "Info", some "a.txt", none, "a.txt", "other"⟩ (by decide)

/-- C5: a potentially-Modified entry (same normalized key on both sides,
differing hashes) with null content on at least one side is never suppressed:
a Modified item for that key is always produced. -/
theorem modified_not_suppressed_on_null_content
    (L R : List ArchiveFile) (rid : Int) (p : String) (lf rf : ArchiveFile)
    (hl : jsGet (buildFileMap L) p = some lf)
    (hr : jsGet (buildFileMap R) p = some rf)
    (hhash : lf.hash ≠ rf.hash)
    (hnull : lf.content = none ∨ rf.content = none) :
    ∃ it ∈ (computeFileDiff L R rid).1, it.mpath = p ∧ it.changeType = "Modified" := by
  have hitem : processKey (buildFileMap L) (buildFileMap R) rid p =
      some (mkDiffItem rid p "Modified" (analyzeFileChange lf rf).1 (some lf) (some rf)) := by
    rcases hnull with h | h
    · simp [processKey, hl, hr, hhash, h]
    · cases hc : lf.content <;> simp [processKey, hl, hr, hhash, h, hc]
  have hkmem : p ∈ dedupKeys [] ((buildFileMap L).map (·.1) ++ (buildFileMap R).map (·.1)) :=
    mem_dedupKeys_of_mem [] _ p
      (List.mem_append.mpr (.inl (mem_keys_of_jsGet_some hl))) (by simp)
  refine ⟨mkDiffItem rid p "Modified" (analyzeFileChange lf rf).1 (some lf) (some rf),
    ?_, rfl, rfl⟩
  rw [mem_items_iff]
  exact List.mem_filterMap.mpr ⟨p, hkmem, hitem⟩

/-- C5 witness: the non-suppression conclusion at a concrete input with null
left content. -/
theorem modified_not_suppressed_witness :
    ∃ it ∈ (computeFileDiff [⟨"p.txt", "h1", 0, none⟩] [⟨"p.txt", "h2", 0, some "x"⟩] 1).1,
      it.mpath = "p.txt" ∧ it.changeType = "Modified" :=
  modified_not_suppressed_on_null_content
    [⟨"p.txt", "h1", 0, none⟩] [⟨"p.txt", "h2", 0, some "x"⟩] 1 "p.txt"
    ⟨"p.txt", "h1", 0, none⟩ ⟨"p.txt", "h2", 0, some "x"⟩
    (by decide) (by decide) (by decide) (by decide)

/-- C1: two XML-family contents identical except for the value of a
`timestamp="..."` attribute (well-formed: quote-free values, and the preceding
text not ending inside an unclosed timestamp attribute) normalize equal, so a
potentially-Modified entry built from them is suppressed: no item is produced
for that normalized path, and every summary counter unit corresponds to a
produced item. -/
theorem timestamp_noise_suppressed
    (L R : List ArchiveFile) (rid : Int) (p : String) (lf rf : ArchiveFile)
    (pre v₁ v₂ post : List Char)
    (hl : jsGet (buildFileMap L) p = some lf)
    (hr : jsGet (buildFileMap R) p = some rf)
    (hhash : lf.hash ≠ rf.hash)
    (hlc : lf.content = some ⟨pre ++ (tsTok v₁ ++ post)⟩)
    (hrc : rf.content = some ⟨pre ++ (tsTok v₂ ++ post)⟩)
    (hlp : isXmlFamilyL (lowerL lf.path.data) = true)
    (hrp : isXmlFamilyL (lowerL rf.path.data) = true)
    (hpre : hasUnclosedTs pre = false)
    (hv₁ : ∀ x ∈ v₁, x ≠ '"') (hv₂ : ∀ x ∈ v₂, x ≠ '"') :
    (∀ it ∈ (computeFileDiff L R rid).1, it.mpath ≠ p) ∧
      (computeFileDiff L R rid).2.high + (computeFileDiff L R rid).2.medium +
          (computeFileDiff L R rid).2.low + (computeFileDiff L R rid).2.info =
        (computeFileDiff L R rid).1.length := by
  have hnorm : normalizeContent ⟨pre ++ (tsTok v₁ ++ post)⟩ lf.path =
      normalizeContent ⟨pre ++ (tsTok v₂ ++ post)⟩ rf.path := by
    simp only [normalizeContent, hlp, if_true, hrp]
    show normalizeXML ⟨pre ++ (tsTok v₁ ++ post)⟩ = normalizeXML ⟨pre ++ (tsTok v₂ ++ post)⟩
    unfold normalizeXML
    exact congrArg String.mk
      (normalizeXMLL_congr (scan_fTimestamp_indep pre v₁ v₂ post hpre hv₁ hv₂))
  have hne : ∀ (v p' : List Char), ((pre ++ (tsTok v ++ p')).isEmpty) = false := by
    intro v p'
    cases pre <;> rfl
  have hnone : processKey (buildFileMap L) (buildFileMap R) rid p = none := by
    simp only [processKey, hl, hr]
    rw [if_neg hhash]
    simp only [hlc, hrc]
    simp [hne, hnorm]
  constructor
  · intro it hit hmp
    rw [mem_items_iff] at hit
    rcases List.mem_filterMap.mp hit with ⟨k, hk, hpk⟩
    have hmk : it.mpath = k := processKey_mpath hpk
    rw [hmp] at hmk
    rw [← hmk] at hpk
    rw [hnone] at hpk
    exact absurd hpk (by simp)
  · exact computeFileDiff_sum L R rid

/-- C1 witness: a concrete suppressed timestamp-only change; the item list is
empty and the counters sum to it. -/
theorem timestamp_noise_suppressed_witness :
    (computeFileDiff [⟨"m.xml", "h1", 0, some "<a timestamp=\"1\"/>"⟩]
        [⟨"m.xml", "h2", 0, some "<a timestamp=\"2\"/>"⟩] 1).1 = [] ∧
      (computeFileDiff [⟨"m.xml", "h1", 0, some "<a timestamp=\"1\"/>"⟩]
            [⟨"m.xml", "h2", 0, some "<a timestamp=\"2\"/>"⟩] 1).2.high +
          (computeFileDiff [⟨"m.xml", "h1", 0, some "<a timestamp=\"1\"/>"⟩]
              [⟨"m.xml", "h2", 0, some "<a timestamp=\"2\"/>"⟩] 1).2.medium +
          (computeFileDiff [⟨"m.xml", "h1", 0, some "<a timestamp=\"1\"/>"⟩]
              [⟨"m.xml", "h2", 0, some "<a timestamp=\"2\"/>"⟩] 1).2.low +
          (computeFileDiff [⟨"m.xml", "h1", 0, some "<a timestamp=\"1\"/>"⟩]
              [⟨"m.xml", "h2", 0, some "<a timestamp=\"2\"/>"⟩] 1).2.info =
        (computeFileDiff [⟨"m.xml", "h1", 0, some "<a timestamp=\"1\"/>"⟩]
            [⟨"m.xml", "h2", 0, some "<a timestamp=\"2\"/>"⟩] 1).1.length :=
  ⟨by decide,
    (timestamp_noise_suppressed
      [⟨"m.xml", "h1", 0, some "<a timestamp=\"1\"/>"⟩]
      [⟨"m.xml", "h2", 0, some "<a timestamp=\"2\"/>"⟩] 1 "m.xml"
      ⟨"m.xml", "h1", 0, some "<a timestamp=\"1\"/>"⟩
      ⟨"m.xml", "h2", 0, some "<a timestamp=\"2\"/>"⟩
      (strL "<a ") (strL "1") (strL "2") (strL "/>")
      (by decide) (by decide) (by decide) (by decide) (by decide) (by decide)
      (by decide) (by decide) (by decide) (by decide)).2⟩

/-! ### Flow comparator lemmas -/

theorem jsGet_buildNodeMap_none (nodes : List CFlowNode) (k : String)
    (h : ∀ m ∈ nodes, lowerStr m.name ≠ k) : jsGet (buildNodeMap nodes) k = none := by
  have heq := jsGet_foldl_set (fun n : CFlowNode => lowerStr n.name)
    (fun n : CFlowNode => n) nodes [] k
  unfold buildNodeMap
  rw [heq]
  cases hf : nodes.reverse.find? (fun n => lowerStr n.name = k) with
  | some m =>
    have hk : lowerStr m.name = k := by simpa using List.find?_some hf
    have hm : m ∈ nodes := List.mem_reverse.mp (List.mem_of_find?_eq_some hf)
    exact absurd hk (h m hm)
  | none => simp [jsGet]

theorem jsGet_buildNodeMap_unique (nodes : List CFlowNode) (n : CFlowNode)
    (hn : n ∈ nodes) (huniq : (nodes.map (fun m => lowerStr m.name)).Nodup) :
    jsGet (buildNodeMap nodes) (lowerStr n.name) = some n := by
  have hinj : ∀ m ∈ nodes, lowerStr m.name = lowerStr n.name → m = n := by
    intro m hm he
    exact List.inj_on_of_nodup_map huniq hm hn he
  have heq := jsGet_foldl_set (fun m : CFlowNode => lowerStr m.name)
    (fun m : CFlowNode => m) nodes [] (lowerStr n.name)
  unfold buildNodeMap
  rw [heq, find?_reverse_of_unique (fun m : CFlowNode => lowerStr m.name) nodes n hn hinj]

theorem jsGet_changes (nodes : List CFlowNode) (classify : CFlowNode → String)
    (n : CFlowNode) (hn : n ∈ nodes) (hid : (nodes.map (·.id)).Nodup) :
    jsGet (nodes.foldl (fun obj m => jsMapSet obj m.id (classify m)) []) n.id =
      some (classify n) := by
  have hinj : ∀ m ∈ nodes, m.id = n.id → m = n := by
    intro m hm he
    exact List.inj_on_of_nodup_map hid hm hn he
  have heq := jsGet_foldl_set (fun m : CFlowNode => m.id) classify nodes [] n.id
  rw [heq, find?_reverse_of_unique (fun m : CFlowNode => m.id) nodes n hn hinj]

/-- C8 counterexample: comparing a flow with itself where two nodes share a
case-insensitive name but differ in type classifies node `n1` as `modified`,
because the name-keyed map is last-write-wins. -/
theorem compareFlows_identical_not_unchanged :
    jsGet (compareFlows
        (some ⟨[⟨"n1", "trigger", "A", "x", none, 0, 0, []⟩,
                ⟨"n2", "action", "a", "y", none, 0, 0, []⟩], [], ⟨"P", none, none⟩⟩)
        (some ⟨[⟨"n1", "trigger", "A", "x", none, 0, 0, []⟩,
                ⟨"n2", "action", "a", "y", none, 0, 0, []⟩], [], ⟨"P", none, none⟩⟩)).1
      "n1" = some "modified" := by
  decide

/-- C8 amended: `compareFlows` classifies by case-insensitive name matching —
an unmatched left node is `removed`, an unmatched right node is `added`, a
matched pair is `modified` on both sides exactly when `activityType`, node
type, or serialized data differ, else `unchanged`; and identical flows yield
`unchanged` everywhere — all provided node ids are unique per side and
case-insensitive names are unique per side (name collisions are resolved
last-write-wins by the code, which breaks the identical-flows clause). -/
theorem compareFlows_classification
    (lf rf : CParsedFlow)
    (hlid : (lf.nodes.map (·.id)).Nodup)
    (hrid : (rf.nodes.map (·.id)).Nodup)
    (hlnm : (lf.nodes.map (fun n => lowerStr n.name)).Nodup)
    (hrnm : (rf.nodes.map (fun n => lowerStr n.name)).Nodup) :
    (∀ n ∈ lf.nodes, (∀ m ∈ rf.nodes, lowerStr m.name ≠ lowerStr n.name) →
        jsGet (compareFlows (some lf) (some rf)).1 n.id = some "removed") ∧
    (∀ m ∈ rf.nodes, (∀ n ∈ lf.nodes, lowerStr n.name ≠ lowerStr m.name) →
        jsGet (compareFlows (some lf) (some rf)).2 m.id = some "added") ∧
    (∀ n ∈ lf.nodes, ∀ m ∈ rf.nodes, lowerStr m.name = lowerStr n.name →
        jsGet (compareFlows (some lf) (some rf)).1 n.id =
          some (if nodeDiffers n m then "modified" else "unchanged") ∧
        jsGet (compareFlows (some lf) (some rf)).2 m.id =
          some (if nodeDiffers m n then "modified" else "unchanged")) ∧
    (lf = rf → ∀ n ∈ lf.nodes,
        jsGet (compareFlows (some lf) (some rf)).1 n.id = some "unchanged" ∧
        jsGet (compareFlows (some lf) (some rf)).2 n.id = some "unchanged") := by
  have hleft : ∀ n ∈ lf.nodes, jsGet (compareFlows (some lf) (some rf)).1 n.id =
      some (classifyLeftNode (buildNodeMap rf.nodes) n) := by
    intro n hn
    simp only [compareFlows]
    exact jsGet_changes lf.nodes _ n hn hlid
  have hright : ∀ m ∈ rf.nodes, jsGet (compareFlows (some lf) (some rf)).2 m.id =
      some (classifyRightNode (buildNodeMap lf.nodes) m) := by
    intro m hm
    simp only [compareFlows]
    exact jsGet_changes rf.nodes _ m hm hrid
  have hmatched : ∀ n ∈ lf.nodes, ∀ m ∈ rf.nodes, lowerStr m.name = lowerStr n.name →
      jsGet (compareFlows (some lf) (some rf)).1 n.id =
        some (if nodeDiffers n m then "modified" else "unchanged") ∧
      jsGet (compareFlows (some lf) (some rf)).2 m.id =
        some (if nodeDiffers m n then "modified" else "unchanged") := by
    intro n hn m hm hname
    constructor
    · rw [hleft n hn]
      unfold classifyLeftNode
      rw [← hname, jsGet_buildNodeMap_unique rf.nodes m hm hrnm]
    · rw [hright m hm]
      unfold classifyRightNode
      rw [hname, jsGet_buildNodeMap_unique lf.nodes n hn hlnm]
  refine ⟨?_, ?_, hmatched, ?_⟩
  · intro n hn hnone
    rw [hleft n hn]
    unfold classifyLeftNode
    rw [jsGet_buildNodeMap_none rf.nodes (lowerStr n.name) hnone]
  · intro m hm hnone
    rw [hright m hm]
    unfold classifyRightNode
    rw [jsGet_buildNodeMap_none lf.nodes (lowerStr m.name) hnone]
  · intro heq n hn
    have hself := hmatched n hn n (heq ▸ hn) rfl
    have hd : nodeDiffers n n = false := by simp [nodeDiffers]
    rw [hd] at hself
    simpa using hself

/-- C8 amended witness: the classification at concrete one-node flows with
distinct names — the left node is `removed` and the right node `added`. -/
theorem compareFlows_classification_witness :
    jsGet (compareFlows
        (some ⟨[⟨"l1", "trigger", "A", "x", none, 0, 0, []⟩], [], ⟨"P", none, none⟩⟩)
        (some ⟨[⟨"r1", "action", "B", "y", none, 0, 0, []⟩], [], ⟨"Q", none, none⟩⟩)).1
      "l1" = some "removed" :=
  (compareFlows_classification
      ⟨[⟨"l1", "trigger", "A", "x", none, 0, 0, []⟩], [], ⟨"P", none, none⟩⟩
      ⟨[⟨"r1", "action", "B", "y", none, 0, 0, []⟩], [], ⟨"Q", none, none⟩⟩
      (by decide) (by decide) (by decide) (by decide)).1
    ⟨"l1", "trigger", "A", "x", none, 0, 0, []⟩ (by decide) (by decide)

/-- C9 counterexample: a parse outcome with no process container — what
`fast-xml-parser` yields for tagless garbage text, an empty object — makes
`parseBpelFlow` return the `Unknown` sentinel, not `Parse Error`, even if the
graph builder could never run. -/
theorem parseBpelFlow_no_process_returns_unknown :
    parseBpelFlowWith (fun _ => parseErrorFlow) (Except.ok (JsVal.obj [])) = unknownFlow ∧
      unknownFlow ≠ parseErrorFlow := by
  constructor
  · simp [parseBpelFlowWith, findProcess, findProcessFields, jsProp, jsGet, jsTruthy]
  · decide

/-- C9 amended: `parseBpelFlow` is total over every parse outcome (nothing
propagates): a throwing parse is caught and yields the empty `Parse Error`
sentinel flow, and a successful parse with no (truthy) process container
yields the empty `Unknown` sentinel flow. -/
theorem parseBpelFlow_sentinel_flows (build : JsVal → CParsedFlow) (parsed : JsVal)
    (h : jsTruthy (findProcess parsed) = false) :
    parseBpelFlowWith build (Except.error ()) = parseErrorFlow ∧
      parseBpelFlowWith build (Except.ok parsed) = unknownFlow := by
  refine ⟨rfl, ?_⟩
  simp [parseBpelFlowWith, h]

/-- C9 amended witness: both sentinel outcomes at a concrete build and parse
result. -/
theorem parseBpelFlow_sentinel_witness :
    parseBpelFlowWith (fun _ => unknownFlow) (Except.error ()) = parseErrorFlow ∧
      parseBpelFlowWith (fun _ => unknownFlow) (Except.ok (JsVal.obj [])) = unknownFlow :=
  parseBpelFlow_sentinel_flows (fun _ => unknownFlow) (JsVal.obj [])
    (by simp [findProcess, findProcessFields, jsProp, jsGet, jsTruthy])

end OIC
